import Mathlib

/-!
# Verification of the stock-screener data pipeline

A shallow embedding of the core of the `tacticaltrades/stock-screener-data`
repository (files `process_stocks.py`, `process_stocks_daily.py`,
`process_ohlc_full.py`, `process_ohlc_daily.py`) together with proofs of the
testable properties stated in the specification.

Python machine arithmetic is modelled exactly: Python `int` arithmetic by
`Nat`/`Int`, price values by `ℚ`, `int(x)` on a non-negative value by the
rational floor, `math.ceil(a / b)` on positive integers by `(a + b - 1) / b`
in `Nat`.  The percentile expression `((total - i) / total) * 99`, which
CPython evaluates in IEEE-754 binary64, is modelled bit-exactly by
`roundDouble`, an exact-rational implementation of round-to-nearest-even to a
53-bit significand applied to each of the two floating-point operations
(`floatRank`); the exact-rational idealization `assignRank` is kept alongside
for the order and bound properties, which are insensitive to rounding.
Python's `list.sort` is a stable sort, hence extensionally equal to insertion
sort with the same key; it is modelled by `List.insertionSort`.
-/

set_option maxRecDepth 1000000

/-! ## Data model

`PriceBar` models the price dictionaries consumed by `process_stocks.py`
(`calculate_returns` reads the keys `t`, `c`, `v`).  `OHLCBar` models the
bars handled by `process_ohlc_daily.py` / `process_ohlc_full.py`
(keys `t`, `o`, `h`, `l`, `c`, `v`). -/

/-- A price record as consumed by `calculate_returns` in `process_stocks.py`:
timestamp `t`, close `c`, volume `v`. -/
structure PriceBar where
  t : Int
  c : ℚ
  v : ℚ
deriving DecidableEq, Repr

/-- A daily OHLC bar as handled by `process_ohlc_daily.py`. -/
structure OHLCBar where
  t : Int
  o : ℚ
  h : ℚ
  l : ℚ
  c : ℚ
  v : Int
deriving DecidableEq, Repr

/-- Comparison used by `sorted(prices, key=lambda x: x['t'])`. -/
def priceLe (a b : PriceBar) : Prop := a.t ≤ b.t

instance : DecidableRel priceLe := fun a b => inferInstanceAs (Decidable (a.t ≤ b.t))
instance : IsTotal PriceBar priceLe := ⟨fun a b => le_total a.t b.t⟩
instance : IsTrans PriceBar priceLe := ⟨fun _ _ _ h h' => le_trans h h'⟩

/-- Comparison used by `daily_data.sort(key=lambda x: x['t'])`. -/
def ohlcLe (a b : OHLCBar) : Prop := a.t ≤ b.t

instance : DecidableRel ohlcLe := fun a b => inferInstanceAs (Decidable (a.t ≤ b.t))
instance : IsTotal OHLCBar ohlcLe := ⟨fun a b => le_total a.t b.t⟩
instance : IsTrans OHLCBar ohlcLe := ⟨fun _ _ _ h h' => le_trans h h'⟩

/-- `sorted(prices, key=lambda x: x['t'])` (stable). -/
def sortPrices (prices : List PriceBar) : List PriceBar :=
  prices.insertionSort priceLe

/-- `daily_data.sort(key=lambda x: x['t'])` (stable, in place). -/
def sortOHLC (bars : List OHLCBar) : List OHLCBar :=
  bars.insertionSort ohlcLe

/-- Strictly increasing timestamp sequence, as a computable predicate. -/
def strictTsB : List Int → Bool
  | [] => true
  | [_] => true
  | a :: b :: l => decide (a < b) && strictTsB (b :: l)

/-- A bar series has strictly increasing timestamps. -/
def StrictTs (l : List OHLCBar) : Prop := strictTsB (l.map (·.t)) = true

instance : DecidablePred StrictTs := fun l =>
  inferInstanceAs (Decidable (strictTsB (l.map (·.t)) = true))

/-! ## RankingEngine: `calculate_returns` (`process_stocks.py` lines 89–121) -/

/-- The four horizon returns computed by `calculate_returns`
(`'3m' ↦ 63`, `'6m' ↦ 126`, `'9m' ↦ 189`, `'12m' ↦ 252`). -/
structure Returns where
  r3m : ℚ
  r6m : ℚ
  r9m : ℚ
  r12m : ℚ
deriving DecidableEq, Repr

/-- One iteration of the `for period, days in periods.items()` loop of
`calculate_returns`: `prices` is the already-sorted series,
`current_price = prices[-1]['c']`, `days` the horizon. -/
def periodReturn (sorted : List PriceBar) (current_price : ℚ) (days : Nat) : ℚ :=
  if sorted.length > days then
    let old_price := (sorted.getD (sorted.length - (days + 1)) ⟨0, 0, 0⟩).c
    if old_price > 0 then (current_price - old_price) / old_price else 0
  else 0

/-- `calculate_returns(prices)` from `process_stocks.py`: returns `none`
(Python `None`) when fewer than 252 bars are available, otherwise the four
horizon returns together with the trailing-20-bar average volume. -/
def calculate_returns (prices : List PriceBar) : Option (Returns × ℚ) :=
  if prices.length < 252 then none
  else
    let sorted := sortPrices prices
    let current_price := (sorted.getD (sorted.length - 1) ⟨0, 0, 0⟩).c
    let returns : Returns :=
      { r3m := periodReturn sorted current_price 63
        r6m := periodReturn sorted current_price 126
        r9m := periodReturn sorted current_price 189
        r12m := periodReturn sorted current_price 252 }
    let recent_volumes := (sorted.drop (sorted.length - 20)).map (·.v)
    let avg_volume :=
      if recent_volumes ≠ [] then recent_volumes.sum / (recent_volumes.length : ℚ) else 0
    some (returns, avg_volume)

/-- `calculate_rs_score(returns)` from `process_stocks.py` lines 123–136
(the weighted sum; in `main` it is only ever applied to a populated
returns dictionary). -/
def calculate_rs_score (r : Returns) : ℚ :=
  2 * r.r3m + 1 * r.r6m + 1 * r.r9m + 1 * r.r12m

/-- Selects from a `Returns` record the return belonging to a horizon of
`d` trailing bars (`63 ↦ '3m'`, `126 ↦ '6m'`, `189 ↦ '9m'`, `252 ↦ '12m'`). -/
def returnFor (r : Returns) (d : Nat) : ℚ :=
  if d = 63 then r.r3m
  else if d = 126 then r.r6m
  else if d = 189 then r.r9m
  else r.r12m

/-- `prices[-1]['c']` of the timestamp-sorted series: the spec's
`lastClose`. -/
def lastClose (prices : List PriceBar) : ℚ :=
  ((sortPrices prices).getD ((sortPrices prices).length - 1) ⟨0, 0, 0⟩).c

/-- `close[len − 1 − h]` of the timestamp-sorted series: the reference
close the spec's return formula divides by (the code reads the same entry
as `prices[-(days + 1)]`). -/
def horizonRef (prices : List PriceBar) (d : Nat) : ℚ :=
  ((sortPrices prices).getD ((sortPrices prices).length - 1 - d) ⟨0, 0, 0⟩).c

/-- Modelled from the spec (§4.4), for comparison with `periodReturn`:
the unguarded return formula `(lastClose − close[len−1−h]) / close[len−1−h]`. -/
def specReturn (prices : List PriceBar) (d : Nat) : ℚ :=
  (lastClose prices - horizonRef prices d) / horizonRef prices d

/-! ## RankingEngine: percentile assignment
(`process_stocks.py` lines 216–222, `process_stocks_daily.py` lines 100–105) -/

/-- A scored stock entry as accumulated in `all_stock_data` /
`updated_stocks` before ranking. -/
structure ScoredStock where
  symbol : String
  rs_score : ℚ
  avg_volume : ℚ
deriving DecidableEq, Repr

/-- The descending comparison realised by
`sort(key=lambda x: x['rs_score'], reverse=True)` (stable). -/
def scoreGe (a b : ScoredStock) : Prop := b.rs_score ≤ a.rs_score

instance : DecidableRel scoreGe := fun a b =>
  inferInstanceAs (Decidable (b.rs_score ≤ a.rs_score))
instance : IsTotal ScoredStock scoreGe := ⟨fun a b => le_total b.rs_score a.rs_score⟩
instance : IsTrans ScoredStock scoreGe := ⟨fun _ _ _ h h' => le_trans h' h⟩

/-- The exact-rational idealization of
`percentile = int(((total_stocks - i) / total_stocks) * 99) + 1;
rank = min(percentile, 99)`: the floor of the exact quotient, which in `Nat`
is `(total - i) * 99 / total`.  The program evaluates the expression in IEEE
binary64 (modelled bit-exactly by `floatRank`), which at some positions lands
one below this idealization; the order and bound facts proved about
`assignRank` (anti-monotonicity in `i`, ranks in `[1, 99]`) are insensitive
to that rounding and hold of the program by the same structural argument. -/
def assignRank (total i : Nat) : Nat :=
  min ((total - i) * 99 / total + 1) 99

/-- The ranking section of `main`: sort the scored universe descending by
RS score and attach `rs_rank` to each entry by position. -/
def assignPercentiles (stocks : List ScoredStock) : List (ScoredStock × Nat) :=
  let sorted := stocks.insertionSort scoreGe
  sorted.enum.map (fun p => (p.2, assignRank stocks.length p.1))

/-- Modelled from the spec (§4.4), for comparison with `assignRank`:
`rank = clamp(⌈(N − i) / N × 99⌉, 1, 99)`, with the ceiling of the exact
rational `(N − i) * 99 / N` written in `Nat` as `((N - i) * 99 + N - 1) / N`. -/
def specCeilRank (total i : Nat) : Nat :=
  min (max (((total - i) * 99 + total - 1) / total) 1) 99

/-! ## Bit-exact model of the program's binary64 percentile arithmetic

CPython evaluates `((total_stocks - i) / total_stocks) * 99` in IEEE-754
binary64: the integer operands convert exactly (they are far below `2^53`),
and each of `/` and `*` is the correctly rounded (round-to-nearest, ties to
even) real result.  `roundDouble` implements that rounding on exact
rationals; no overflow or subnormal handling is needed since every value
arising here lies well inside the normal range. -/

/-- Structural-recursion version of `Nat.log2` (the core `Nat.log2` is
defined by well-founded recursion and does not reduce definitionally);
`natLog2_eq` below proves them equal. -/
def log2fuel : Nat → Nat → Nat
  | 0, _ => 0
  | fuel + 1, n => if 2 ≤ n then log2fuel fuel (n / 2) + 1 else 0

/-- `Nat.log2`, computably: `⌊log₂ n⌋` for `n ≥ 1`. -/
def natLog2 (n : Nat) : Nat := log2fuel n n

/-- `2 ^ e` in `ℚ` for an integer exponent, by computable `Nat` powers. -/
def pow2 (e : ℤ) : ℚ :=
  if 0 ≤ e then ((2 ^ e.toNat : ℕ) : ℚ) else (((2 ^ (-e).toNat : ℕ) : ℚ))⁻¹

/-- Round a rational to the nearest integer, ties to the even integer —
the rounding of the binary64 significand. -/
def roundHalfEven (x : ℚ) : ℤ :=
  if x - ⌊x⌋ < 1/2 then ⌊x⌋
  else if 1/2 < x - ⌊x⌋ then ⌊x⌋ + 1
  else if ⌊x⌋ % 2 = 0 then ⌊x⌋ else ⌊x⌋ + 1

/-- `⌊log₂ q⌋` for a positive rational: the exponent `e` with
`2^e ≤ q < 2^(e+1)` (see `log2floorQ_spec`). -/
def log2floorQ (q : ℚ) : ℤ :=
  if pow2 ((natLog2 q.num.toNat : ℤ) - (natLog2 q.den : ℤ)) ≤ q
  then (natLog2 q.num.toNat : ℤ) - (natLog2 q.den : ℤ)
  else (natLog2 q.num.toNat : ℤ) - (natLog2 q.den : ℤ) - 1

/-- Round a positive rational to 53 significant bits, ties to even: scale
into `[2^52, 2^53)`, round to an integer significand, scale back. -/
def roundPos (q : ℚ) : ℚ :=
  (roundHalfEven (q * pow2 ((52 : ℤ) - log2floorQ q)) : ℤ)
    * pow2 (log2floorQ q - (52 : ℤ))

/-- IEEE-754 binary64 round-to-nearest-even of an exact rational
(normal range; overflow and subnormals never arise for the values here). -/
def roundDouble (q : ℚ) : ℚ :=
  if q = 0 then 0
  else if 0 < q then roundPos q
  else -roundPos (-q)

/-- The rank the program computes at position `i` in a universe of `total`
stocks, with the two floating-point operations of
`int(((total - i) / total) * 99) + 1` (the division and the
multiplication) rounded exactly as binary64 does:
`min(int(fl(fl((total − i) / total) · 99)) + 1, 99)`. -/
def floatRank (total i : Nat) : Nat :=
  min (Int.toNat ⌊roundDouble (roundDouble (((total - i : Nat) : ℚ) / (total : ℚ)) * 99)⌋ + 1) 99

/-- The ranking section of `main` with the percentile expression evaluated
in the binary64 model: sort the scored universe descending by RS score and
attach `rs_rank` to each entry by position. -/
def assignPercentilesFloat (stocks : List ScoredStock) : List (ScoredStock × Nat) :=
  let sorted := stocks.insertionSort scoreGe
  sorted.enum.map (fun p => (p.2, floatRank stocks.length p.1))

/-! ## Full and daily ranking pipelines
(`process_stocks.py` lines 173–250, `process_stocks_daily.py` lines 99–116) -/

/-- One ranking record of the output artifact (`symbol`, `rs_rank`,
`raw_volume`; the formatted volume string is presentation only). -/
structure RankRecord where
  symbol : String
  rs_rank : Nat
  raw_volume : ℚ
deriving DecidableEq, Repr

/-- The rankings artifact written to `rankings.json`. -/
structure RankingsArtifact where
  total_stocks : Nat
  data : List RankRecord
deriving DecidableEq, Repr

/-- The accumulation loop of `main` in `process_stocks.py` (lines 176–200),
restricted to its data flow: every fetched symbol whose `calculate_returns`
is not `None` contributes a scored entry; a `None` result contributes
nothing. -/
def eligibleStocks (fetched : List (String × List PriceBar)) : List ScoredStock :=
  fetched.filterMap (fun sp =>
    match calculate_returns sp.2 with
    | none => none
    | some rv => some ⟨sp.1, calculate_rs_score rv.1, rv.2⟩)

/-- Lines 212–250 of `process_stocks.py`: only `if all_stock_data:` is the
artifact built and written; an empty scored universe writes nothing
(`none`). -/
def process_stocks_artifact (all_stock_data : List ScoredStock) : Option RankingsArtifact :=
  if all_stock_data = [] then none
  else
    let ranked := assignPercentiles all_stock_data
    let output_data := ranked.map (fun p => RankRecord.mk p.1.symbol p.2 p.1.avg_volume)
    some ⟨output_data.length, output_data⟩

/-- Lines 99–116 of `process_stocks_daily.py`: the artifact is built and
written unconditionally from `updated_stocks`, also when it is empty. -/
def process_stocks_daily_artifact (updated_stocks : List ScoredStock) : RankingsArtifact :=
  let ranked := assignPercentiles updated_stocks
  let data := ranked.map (fun p => RankRecord.mk p.1.symbol p.2 p.1.avg_volume)
  ⟨updated_stocks.length, data⟩

/-! ## ShardPlanner: `get_split_ranges`
(`process_ohlc_full.py` lines 45–71) -/

/-- One shard descriptor produced by `get_split_ranges`. -/
structure Split where
  file_index : Nat
  range_start : String
  range_end : String
  symbols : List String
  symbol_count : Nat
deriving DecidableEq, Repr

/-- Lexicographic sort of the symbol universe, `sorted(self.symbols)`. -/
def sortSymbols (symbols : List String) : List String :=
  symbols.insertionSort (· ≤ ·)

/-- `math.ceil(total_symbols / target)` for natural numbers. -/
def ceilNatDiv (total target : Nat) : Nat := (total + target - 1) / target

/-- `get_split_ranges` from `process_ohlc_full.py` with the target shard
size `N` (`self.target_symbols_per_file`, 50 in the source) as a parameter:
empty universe yields an empty plan, otherwise the sorted universe is cut
into `⌈total / N⌉` contiguous chunks
(`sorted_symbols[i*N : min(i*N + N, total)]`). -/
def get_split_ranges (symbols : List String) (N : Nat) : List Split :=
  if symbols = [] then []
  else
    let sorted_symbols := sortSymbols symbols
    let total := sorted_symbols.length
    let num_files := ceilNatDiv total N
    (List.range num_files).map (fun i =>
      let chunk := (sorted_symbols.drop (i * N)).take N
      { file_index := i + 1
        range_start := chunk.headD ""
        range_end := chunk.getLastD ""
        symbols := chunk
        symbol_count := chunk.length })

/-! ## IncrementalUpdater: `update_symbol_data`
(`process_ohlc_daily.py` lines 102–132) -/

/-- The `for i, bar in enumerate(daily_data): if bar['t'] == update_timestamp:
daily_data[i] = latest_bar; break` loop: replace the first bar carrying the
given timestamp. -/
def replaceFirstBar (daily_data : List OHLCBar) (latest_bar : OHLCBar)
    (update_timestamp : Int) : List OHLCBar :=
  match daily_data with
  | [] => []
  | bar :: rest =>
      if bar.t = update_timestamp then latest_bar :: rest
      else bar :: replaceFirstBar rest latest_bar update_timestamp

/-- Lines 117–120 of `process_ohlc_daily.py`: `if len(daily_data) > 400:
symbol_data['1D'] = daily_data[-400:]` — keep only the last 400 entries of
the (sorted) series. -/
def capSeries (d : List OHLCBar) : List OHLCBar :=
  if d.length > 400 then d.drop (d.length - 400) else d

/-- `update_symbol_data` from `process_ohlc_daily.py`, at the level of the
`'1D'` series: if the timestamp is absent, append the bar, re-sort by
timestamp and keep only the last 400 entries; if it is present, replace the
first bar carrying it. -/
def update_symbol_data (daily_data : List OHLCBar) (latest_bar : OHLCBar)
    (update_timestamp : Int) : List OHLCBar :=
  if update_timestamp ∉ daily_data.map (·.t) then
    capSeries (sortOHLC (daily_data ++ [latest_bar]))
  else
    replaceFirstBar daily_data latest_bar update_timestamp

/-- The call made by `process_split_file` (line 153–154):
`update_symbol_data(symbol, data, latest_bar, latest_bar['t'])`. -/
def mergeBar (series : List OHLCBar) (bar : OHLCBar) : List OHLCBar :=
  update_symbol_data series bar bar.t

/-- The merged series before the retention cap is applied (replacement
branch keeps the series as produced; append branch is the sorted
concatenation). -/
def mergedFull (series : List OHLCBar) (bar : OHLCBar) : List OHLCBar :=
  if bar.t ∉ series.map (·.t) then sortOHLC (series ++ [bar])
  else replaceFirstBar series bar bar.t

/-! ## ShardStore index persistence: `save_updated_index`
(`process_ohlc_daily.py` lines 199–224) -/

/-- One entry of `index_data['files']` (fields relevant to persistence). -/
structure FileInfo where
  filename : String
  file_size : Nat
deriving DecidableEq, Repr

/-- The index contents (fields relevant to persistence). -/
structure IndexData where
  last_updated : Nat
  files : List FileInfo
deriving DecidableEq, Repr

/-- The file-system state seen by `save_updated_index`: the persisted
`ohlc_index.json` contents and the actual byte size of each shard file on
disk (`os.path.getsize`), after the daily run has rewritten the shards. -/
structure DiskState where
  indexOnDisk : Option IndexData
  shardSize : String → Nat

/-- `save_updated_index` from `process_ohlc_daily.py`: first `json.dump`s
`index_data` to `ohlc_index.json`, and only afterwards walks
`index_data['files']` setting `file_info['file_size'] = os.path.getsize(...)`
on the in-memory dictionary.  Returns the disk state after the dump together
with the in-memory index as mutated by the size-refresh loop. -/
def save_updated_index (disk : DiskState) (index_data : IndexData) :
    DiskState × IndexData :=
  let disk' : DiskState := { disk with indexOnDisk := some index_data }
  let refreshed : IndexData :=
    { index_data with
        files := index_data.files.map (fun fi =>
          { fi with file_size := disk.shardSize fi.filename }) }
  (disk', refreshed)

/-! ## Concrete bar series used as test inputs -/

/-- A 252-bar series (timestamps `0, …, 251`, closes `1`) whose close at
index `188 = 252 − 1 − 63` — the 63-bar reference close — is `−1`. -/
def seriesNegRef : List PriceBar :=
  (List.range 252).map
    (fun i : Nat => if i = 188 then ⟨(i : Int), -1, 1⟩ else ⟨(i : Int), 1, 1⟩)

/-- A 252-bar series (timestamps `0, …, 251`, closes `1`) whose close at
index `125 = 252 − 1 − 126` — the 126-bar reference close — is `0`. -/
def seriesZeroRef : List PriceBar :=
  (List.range 252).map
    (fun i : Nat => if i = 125 then ⟨(i : Int), 0, 1⟩ else ⟨(i : Int), 1, 1⟩)

/-! ## Helper lemmas about the percentile assignment -/

theorem insertionSort_scoreGe_length (stocks : List ScoredStock) :
    (stocks.insertionSort scoreGe).length = stocks.length :=
  (List.perm_insertionSort scoreGe stocks).length_eq

theorem assignPercentiles_length (stocks : List ScoredStock) :
    (assignPercentiles stocks).length = stocks.length := by
  simp [assignPercentiles, List.enum_length, insertionSort_scoreGe_length]

theorem assignPercentiles_getD (stocks : List ScoredStock) (i : Nat)
    (h : i < stocks.length) :
    (assignPercentiles stocks).getD i (⟨"", 0, 0⟩, 0)
      = ((stocks.insertionSort scoreGe).getD i ⟨"", 0, 0⟩,
          assignRank stocks.length i) := by
  have hlen : i < (stocks.insertionSort scoreGe).length := by
    rw [insertionSort_scoreGe_length]; exact h
  unfold assignPercentiles
  rw [List.getD_eq_getElem?_getD, List.getElem?_map, List.getElem?_enum,
    List.getElem?_eq_getElem hlen, List.getD_eq_getElem _ _ hlen]
  rfl

theorem assignRank_le_99 (total i : Nat) : assignRank total i ≤ 99 :=
  min_le_right _ _

theorem one_le_assignRank (total i : Nat) : 1 ≤ assignRank total i :=
  le_min (Nat.succ_le_succ (Nat.zero_le _)) (by norm_num)

theorem assignRank_anti (total : Nat) {i j : Nat} (hij : i ≤ j) :
    assignRank total j ≤ assignRank total i := by
  unfold assignRank
  exact min_le_min
    (Nat.add_le_add_right
      (Nat.div_le_div_right (Nat.mul_le_mul_right 99 (Nat.sub_le_sub_left hij total))) 1)
    le_rfl

/-! ## Helper lemmas about the binary64 rounding model -/

theorem log2fuel_eq : ∀ (fuel n : Nat), n ≤ fuel → log2fuel fuel n = Nat.log2 n := by
  intro fuel
  induction fuel with
  | zero =>
    intro n hn
    have hn0 : n = 0 := by omega
    subst hn0
    simp [log2fuel, Nat.log2]
  | succ f ih =>
    intro n hn
    by_cases h2 : 2 ≤ n
    · have hdiv : n / 2 < n := Nat.div_lt_self (by omega) (by norm_num)
      rw [show log2fuel (f + 1) n = if 2 ≤ n then log2fuel f (n / 2) + 1 else 0 from rfl]
      rw [if_pos h2, ih (n / 2) (by omega)]
      conv_rhs => rw [Nat.log2]
      rw [if_pos h2]
    · rw [show log2fuel (f + 1) n = if 2 ≤ n then log2fuel f (n / 2) + 1 else 0 from rfl]
      rw [if_neg h2]
      conv_rhs => rw [Nat.log2]
      rw [if_neg h2]

theorem natLog2_eq (n : Nat) : natLog2 n = Nat.log2 n := log2fuel_eq n n le_rfl

theorem pow2_eq_zpow (e : ℤ) : pow2 e = (2 : ℚ) ^ e := by
  unfold pow2
  by_cases h : 0 ≤ e
  · rw [if_pos h]
    push_cast
    rw [← zpow_natCast (2 : ℚ) e.toNat, Int.toNat_of_nonneg h]
  · rw [if_neg h]
    push_cast
    rw [← zpow_natCast (2 : ℚ) (-e).toNat, Int.toNat_of_nonneg (by omega), zpow_neg,
      inv_inv]

theorem pow2_pos (e : ℤ) : 0 < pow2 e := by
  rw [pow2_eq_zpow]
  exact zpow_pos (by norm_num) e

theorem pow2_mono {m n : ℤ} (h : m ≤ n) : pow2 m ≤ pow2 n := by
  rw [pow2_eq_zpow, pow2_eq_zpow]
  exact zpow_le_zpow_right₀ (by norm_num) h

theorem pow2_lt_iff {m n : ℤ} : pow2 m < pow2 n ↔ m < n := by
  rw [pow2_eq_zpow, pow2_eq_zpow]
  exact zpow_lt_zpow_iff_right₀ (by norm_num)

theorem pow2_mul_pow2 (m n : ℤ) : pow2 m * pow2 n = pow2 (m + n) := by
  rw [pow2_eq_zpow, pow2_eq_zpow, pow2_eq_zpow,
    ← zpow_add₀ (by norm_num : (2 : ℚ) ≠ 0)]

theorem pow2_natCast_pow (n : ℕ) : ((2 ^ n : ℕ) : ℚ) = pow2 (n : ℤ) := by
  rw [pow2_eq_zpow, zpow_natCast]
  push_cast
  rfl

theorem pow2_intCast_pow (n : ℕ) : ((2 ^ n : ℤ) : ℚ) = pow2 (n : ℤ) := by
  rw [pow2_eq_zpow, zpow_natCast]
  push_cast
  rfl

theorem roundHalfEven_ge (x : ℚ) : ⌊x⌋ ≤ roundHalfEven x := by
  unfold roundHalfEven
  split_ifs <;> omega

theorem roundHalfEven_le (x : ℚ) : roundHalfEven x ≤ ⌊x⌋ + 1 := by
  unfold roundHalfEven
  split_ifs <;> omega

theorem roundHalfEven_mono {x y : ℚ} (h : x ≤ y) :
    roundHalfEven x ≤ roundHalfEven y := by
  have hf : ⌊x⌋ ≤ ⌊y⌋ := Int.floor_le_floor h
  rcases eq_or_lt_of_le hf with heq | hlt
  · unfold roundHalfEven
    rw [← heq]
    have hfr : x - (⌊x⌋ : ℚ) ≤ y - (⌊x⌋ : ℚ) := by linarith
    split_ifs <;> try omega
    all_goals (exfalso; linarith)
  · have h1 := roundHalfEven_le x
    have h2 := roundHalfEven_ge y
    omega

theorem log2floorQ_spec (q : ℚ) (hq : 0 < q) :
    pow2 (log2floorQ q) ≤ q ∧ q < pow2 (log2floorQ q + 1) := by
  have hnum : 0 < q.num := Rat.num_pos.mpr hq
  have ha0 : q.num.toNat ≠ 0 := by omega
  have hden0 : q.den ≠ 0 := q.den_nz
  have haQ : ((q.num.toNat : ℕ) : ℚ) = (q.num : ℚ) := by
    exact_mod_cast congrArg (fun z : ℤ => (z : ℚ)) (Int.toNat_of_nonneg hnum.le)
  have hqeq : q = ((q.num.toNat : ℕ) : ℚ) / ((q.den : ℕ) : ℚ) := by
    rw [haQ, Rat.num_div_den]
  have hpden : (0 : ℚ) < ((q.den : ℕ) : ℚ) :=
    Nat.cast_pos.mpr (Nat.pos_of_ne_zero hden0)
  have hpa : (0 : ℚ) < ((q.num.toNat : ℕ) : ℚ) := by
    exact_mod_cast Nat.pos_of_ne_zero ha0
  have hA1 : pow2 ((Nat.log2 q.num.toNat : ℕ) : ℤ) ≤ ((q.num.toNat : ℕ) : ℚ) := by
    rw [← pow2_natCast_pow]
    exact_mod_cast Nat.log2_self_le ha0
  have hA2 : ((q.num.toNat : ℕ) : ℚ) < pow2 ((Nat.log2 q.num.toNat + 1 : ℕ) : ℤ) := by
    rw [← pow2_natCast_pow]
    exact_mod_cast Nat.lt_log2_self
  have hB1 : pow2 ((Nat.log2 q.den : ℕ) : ℤ) ≤ ((q.den : ℕ) : ℚ) := by
    rw [← pow2_natCast_pow]
    exact_mod_cast Nat.log2_self_le hden0
  have hB2 : ((q.den : ℕ) : ℚ) < pow2 ((Nat.log2 q.den + 1 : ℕ) : ℤ) := by
    rw [← pow2_natCast_pow]
    exact_mod_cast Nat.lt_log2_self
  have hupper : q < pow2 ((Nat.log2 q.num.toNat : ℤ) - (Nat.log2 q.den : ℤ) + 1) := by
    conv_lhs => rw [hqeq]
    rw [div_lt_iff₀ hpden]
    calc ((q.num.toNat : ℕ) : ℚ)
        < pow2 ((Nat.log2 q.num.toNat + 1 : ℕ) : ℤ) := hA2
      _ = pow2 ((Nat.log2 q.num.toNat : ℤ) - (Nat.log2 q.den : ℤ) + 1)
            * pow2 ((Nat.log2 q.den : ℕ) : ℤ) := by
          rw [pow2_mul_pow2]
          congr 1
          push_cast
          ring
      _ ≤ pow2 ((Nat.log2 q.num.toNat : ℤ) - (Nat.log2 q.den : ℤ) + 1)
            * ((q.den : ℕ) : ℚ) :=
          mul_le_mul_of_nonneg_left hB1 (pow2_pos _).le
  have hlower : pow2 ((Nat.log2 q.num.toNat : ℤ) - (Nat.log2 q.den : ℤ) - 1) < q := by
    conv_rhs => rw [hqeq]
    rw [lt_div_iff₀ hpden]
    calc pow2 ((Nat.log2 q.num.toNat : ℤ) - (Nat.log2 q.den : ℤ) - 1)
          * ((q.den : ℕ) : ℚ)
        < pow2 ((Nat.log2 q.num.toNat : ℤ) - (Nat.log2 q.den : ℤ) - 1)
            * pow2 ((Nat.log2 q.den + 1 : ℕ) : ℤ) :=
          mul_lt_mul_of_pos_left hB2 (pow2_pos _)
      _ = pow2 ((Nat.log2 q.num.toNat : ℕ) : ℤ) := by
          rw [pow2_mul_pow2]
          congr 1
          push_cast
          ring
      _ ≤ ((q.num.toNat : ℕ) : ℚ) := hA1
  unfold log2floorQ
  rw [natLog2_eq, natLog2_eq]
  by_cases hb : pow2 ((Nat.log2 q.num.toNat : ℤ) - (Nat.log2 q.den : ℤ)) ≤ q
  · rw [if_pos hb]
    exact ⟨hb, hupper⟩
  · rw [if_neg hb]
    refine ⟨hlower.le, ?_⟩
    rw [sub_add_cancel]
    exact not_le.mp hb

theorem log2floorQ_mono {a b : ℚ} (ha : 0 < a) (h : a ≤ b) :
    log2floorQ a ≤ log2floorQ b := by
  have hb : 0 < b := lt_of_lt_of_le ha h
  obtain ⟨ha1, _⟩ := log2floorQ_spec a ha
  obtain ⟨_, hb2⟩ := log2floorQ_spec b hb
  have hlt : pow2 (log2floorQ a) < pow2 (log2floorQ b + 1) :=
    lt_of_le_of_lt (le_trans ha1 h) hb2
  have := pow2_lt_iff.mp hlt
  omega

theorem roundPos_lb (q : ℚ) (hq : 0 < q) : pow2 (log2floorQ q) ≤ roundPos q := by
  obtain ⟨h1, _⟩ := log2floorQ_spec q hq
  have hsl : pow2 (52 : ℤ) ≤ q * pow2 ((52 : ℤ) - log2floorQ q) := by
    calc pow2 (52 : ℤ)
        = pow2 (log2floorQ q) * pow2 ((52 : ℤ) - log2floorQ q) := by
          rw [pow2_mul_pow2]
          congr 1
          ring
      _ ≤ q * pow2 ((52 : ℤ) - log2floorQ q) :=
          mul_le_mul_of_nonneg_right h1 (pow2_pos _).le
  have hfl : (2 ^ 52 : ℤ) ≤ ⌊q * pow2 ((52 : ℤ) - log2floorQ q)⌋ := by
    rw [Int.le_floor, pow2_intCast_pow]
    exact_mod_cast hsl
  have hrhe : (2 ^ 52 : ℤ) ≤ roundHalfEven (q * pow2 ((52 : ℤ) - log2floorQ q)) :=
    le_trans hfl (roundHalfEven_ge _)
  unfold roundPos
  calc pow2 (log2floorQ q)
      = pow2 ((52 : ℕ) : ℤ) * pow2 (log2floorQ q - (52 : ℤ)) := by
        rw [pow2_mul_pow2]
        congr 1
        push_cast
        ring
    _ ≤ (roundHalfEven (q * pow2 ((52 : ℤ) - log2floorQ q)) : ℚ)
          * pow2 (log2floorQ q - (52 : ℤ)) := by
        refine mul_le_mul_of_nonneg_right ?_ (pow2_pos _).le
        rw [← pow2_intCast_pow]
        exact_mod_cast hrhe

theorem roundPos_ub (q : ℚ) (hq : 0 < q) : roundPos q ≤ pow2 (log2floorQ q + 1) := by
  obtain ⟨_, h2⟩ := log2floorQ_spec q hq
  have hsu : q * pow2 ((52 : ℤ) - log2floorQ q) < pow2 (53 : ℤ) := by
    calc q * pow2 ((52 : ℤ) - log2floorQ q)
        < pow2 (log2floorQ q + 1) * pow2 ((52 : ℤ) - log2floorQ q) :=
          mul_lt_mul_of_pos_right h2 (pow2_pos _)
      _ = pow2 (53 : ℤ) := by
          rw [pow2_mul_pow2]
          congr 1
          ring
  have hfl : ⌊q * pow2 ((52 : ℤ) - log2floorQ q)⌋ < (2 ^ 53 : ℤ) := by
    rw [Int.floor_lt, pow2_intCast_pow]
    exact_mod_cast hsu
  have hrhe : roundHalfEven (q * pow2 ((52 : ℤ) - log2floorQ q)) ≤ (2 ^ 53 : ℤ) :=
    le_trans (roundHalfEven_le _) (by omega)
  unfold roundPos
  calc (roundHalfEven (q * pow2 ((52 : ℤ) - log2floorQ q)) : ℚ)
        * pow2 (log2floorQ q - (52 : ℤ))
      ≤ pow2 ((53 : ℕ) : ℤ) * pow2 (log2floorQ q - (52 : ℤ)) := by
        refine mul_le_mul_of_nonneg_right ?_ (pow2_pos _).le
        rw [← pow2_intCast_pow]
        exact_mod_cast hrhe
    _ = pow2 (log2floorQ q + 1) := by
        rw [pow2_mul_pow2]
        congr 1
        push_cast
        ring

theorem roundPos_pos (q : ℚ) (hq : 0 < q) : 0 < roundPos q :=
  lt_of_lt_of_le (pow2_pos _) (roundPos_lb q hq)

theorem roundPos_mono {a b : ℚ} (ha : 0 < a) (h : a ≤ b) :
    roundPos a ≤ roundPos b := by
  have hb : 0 < b := lt_of_lt_of_le ha h
  have he := log2floorQ_mono ha h
  rcases eq_or_lt_of_le he with heq | hlt
  · unfold roundPos
    rw [← heq]
    exact mul_le_mul_of_nonneg_right
      (Int.cast_le.mpr (roundHalfEven_mono
        (mul_le_mul_of_nonneg_right h (pow2_pos _).le)))
      (pow2_pos _).le
  · calc roundPos a ≤ pow2 (log2floorQ a + 1) := roundPos_ub a ha
      _ ≤ pow2 (log2floorQ b) := pow2_mono (by omega)
      _ ≤ roundPos b := roundPos_lb b hb

theorem roundDouble_zero : roundDouble 0 = 0 := by
  unfold roundDouble
  rw [if_pos rfl]

theorem roundDouble_nonneg {q : ℚ} (h : 0 ≤ q) : 0 ≤ roundDouble q := by
  unfold roundDouble
  split_ifs with h1 h2
  · exact le_rfl
  · exact (roundPos_pos q h2).le
  · exact absurd (lt_of_le_of_ne h (Ne.symm h1)) h2

theorem roundDouble_mono_nonneg {a b : ℚ} (ha : 0 ≤ a) (h : a ≤ b) :
    roundDouble a ≤ roundDouble b := by
  rcases eq_or_lt_of_le ha with h0 | hpos
  · rw [← h0, roundDouble_zero]
    exact roundDouble_nonneg (le_trans ha h)
  · have hb : 0 < b := lt_of_lt_of_le hpos h
    unfold roundDouble
    rw [if_neg (ne_of_gt hpos), if_pos hpos, if_neg (ne_of_gt hb), if_pos hb]
    exact roundPos_mono hpos h

theorem roundDouble_one : roundDouble 1 = 1 := by
  with_unfolding_all decide

theorem roundDouble_ninetynine : roundDouble 99 = 99 := by
  with_unfolding_all decide

/-! ## Helper lemmas about `floatRank` -/

theorem floatRank_le_99 (total i : Nat) : floatRank total i ≤ 99 :=
  min_le_right _ _

theorem one_le_floatRank (total i : Nat) : 1 ≤ floatRank total i :=
  le_min (Nat.succ_le_succ (Nat.zero_le _)) (by norm_num)

theorem floatRank_anti (total : Nat) {i j : Nat} (hij : i ≤ j) :
    floatRank total j ≤ floatRank total i := by
  have h0j : (0 : ℚ) ≤ ((total - j : Nat) : ℚ) / (total : ℚ) :=
    div_nonneg (Nat.cast_nonneg _) (Nat.cast_nonneg _)
  have hq : ((total - j : Nat) : ℚ) / (total : ℚ)
      ≤ ((total - i : Nat) : ℚ) / (total : ℚ) := by
    rcases Nat.eq_zero_or_pos total with h0 | hpos
    · subst h0
      norm_num
    · exact (div_le_div_iff_of_pos_right (by exact_mod_cast hpos)).mpr
        (Nat.cast_le.mpr (Nat.sub_le_sub_left hij total))
  have r1 := roundDouble_mono_nonneg h0j hq
  have r1n : (0 : ℚ) ≤ roundDouble (((total - j : Nat) : ℚ) / (total : ℚ)) :=
    roundDouble_nonneg h0j
  have r2 := mul_le_mul_of_nonneg_right r1 (by norm_num : (0 : ℚ) ≤ 99)
  have r2n : (0 : ℚ) ≤ roundDouble (((total - j : Nat) : ℚ) / (total : ℚ)) * 99 :=
    mul_nonneg r1n (by norm_num)
  have r3 := roundDouble_mono_nonneg r2n r2
  have r4 := Int.floor_le_floor r3
  unfold floatRank
  exact min_le_min (Nat.add_le_add_right (Int.toNat_le_toNat r4) 1) le_rfl

theorem floatRank_zero (total : Nat) (h : 0 < total) : floatRank total 0 = 99 := by
  unfold floatRank
  rw [Nat.sub_zero,
    div_self (show ((total : Nat) : ℚ) ≠ 0 from Nat.cast_ne_zero.mpr (by omega)),
    roundDouble_one, one_mul, roundDouble_ninetynine]
  with_unfolding_all decide

theorem map_snd_assignPercentilesFloat (stocks : List ScoredStock) :
    (assignPercentilesFloat stocks).map Prod.snd
      = (List.range stocks.length).map (floatRank stocks.length) := by
  unfold assignPercentilesFloat
  rw [List.map_map]
  rw [← insertionSort_scoreGe_length stocks,
    ← List.enum_map_fst (stocks.insertionSort scoreGe), List.map_map]
  rfl

/-! ## C1: the positional percentile formula -/

/-- C1 (counterexample): in a universe of size `N = 99` (99 equal-score
symbols, so the stable descending sort keeps positions), the program — its
binary64 arithmetic modelled bit-exactly — assigns the last symbol
(`i = 98`) rank `2`, whereas the claimed formula
`clamp(⌈(N − i) / N × 99⌉, 1, 99)` yields `1`; and in a universe of size 11
it assigns the symbol at `i = 5` rank `54`, whereas the exact-arithmetic
floor-plus-one `min(⌊(N − i) × 99 / N⌋ + 1, 99)` yields `55` — so no
exact-rational reading of the positional formula matches the program. -/
theorem c1_counterexample :
    ((assignPercentilesFloat (List.replicate 99 ⟨"S", 0, 0⟩)).map Prod.snd)[98]?
        = some 2 ∧
      specCeilRank 99 98 = 1 ∧
      ((assignPercentilesFloat (List.replicate 11 ⟨"S", 0, 0⟩)).map Prod.snd)[5]?
        = some 54 ∧
      assignRank 11 5 = 55 := by
  refine ⟨?_, by decide, ?_, by decide⟩ <;> with_unfolding_all decide

/-- C1 (amended): for every scored universe of size `N` the ranking run
gives the `i`-th entry (0-indexed, descending by RS score) the rank
`min(int(fl(fl((N − i) / N) · 99)) + 1, 99)` where `fl` is binary64
rounding (`floatRank`); the symbol with the highest score receives rank
`99`, ranks are monotonically non-increasing in `i`, and every rank lies in
`[1, 99]`. -/
theorem c1_float_rank_properties (stocks : List ScoredStock) (i j : Nat)
    (hij : i ≤ j) (hj : j < stocks.length) :
    ((assignPercentilesFloat stocks).map Prod.snd)[i]?
        = some (floatRank stocks.length i) ∧
      ((assignPercentilesFloat stocks).map Prod.snd)[0]? = some 99 ∧
      floatRank stocks.length j ≤ floatRank stocks.length i ∧
      1 ≤ floatRank stocks.length i ∧ floatRank stocks.length i ≤ 99 := by
  rw [map_snd_assignPercentilesFloat]
  refine ⟨?_, ?_, floatRank_anti stocks.length hij, one_le_floatRank _ _,
    floatRank_le_99 _ _⟩
  · simp [List.getElem?_map, List.getElem?_range, lt_of_le_of_lt hij hj]
  · simp [List.getElem?_map, List.getElem?_range, lt_of_le_of_lt (Nat.zero_le j) hj]
    exact floatRank_zero stocks.length (lt_of_le_of_lt (Nat.zero_le j) hj)

/-- Witness for `c1_float_rank_properties` at a concrete three-stock
universe. -/
theorem c1_float_rank_properties_witness :
    ((assignPercentilesFloat [⟨"A", 3, 0⟩, ⟨"B", 2, 0⟩, ⟨"C", 1, 0⟩]).map Prod.snd)[1]?
        = some (floatRank 3 1) ∧
      ((assignPercentilesFloat [⟨"A", 3, 0⟩, ⟨"B", 2, 0⟩, ⟨"C", 1, 0⟩]).map
          Prod.snd)[0]? = some 99 ∧
      floatRank 3 2 ≤ floatRank 3 1 ∧
      1 ≤ floatRank 3 1 ∧ floatRank 3 1 ≤ 99 :=
  c1_float_rank_properties [⟨"A", 3, 0⟩, ⟨"B", 2, 0⟩, ⟨"C", 1, 0⟩] 1 2
    (by decide) (by decide)

/-! ## C6: score monotonicity of ranks -/

/-- C6: in one ranking run, a strictly greater RS score never receives a
strictly smaller rank: for any two entries of the output, if the first's
score exceeds the second's, its rank is at least the second's. -/
theorem c6_rank_monotone (stocks : List ScoredStock) (i j : Nat)
    (hi : i < stocks.length) (hj : j < stocks.length)
    (hscore : ((assignPercentiles stocks).getD j (⟨"", 0, 0⟩, 0)).1.rs_score
      < ((assignPercentiles stocks).getD i (⟨"", 0, 0⟩, 0)).1.rs_score) :
    ((assignPercentiles stocks).getD j (⟨"", 0, 0⟩, 0)).2
      ≤ ((assignPercentiles stocks).getD i (⟨"", 0, 0⟩, 0)).2 := by
  rw [assignPercentiles_getD stocks i hi, assignPercentiles_getD stocks j hj]
    at hscore ⊢
  have hi' : i < (stocks.insertionSort scoreGe).length := by
    rw [insertionSort_scoreGe_length]; exact hi
  have hj' : j < (stocks.insertionSort scoreGe).length := by
    rw [insertionSort_scoreGe_length]; exact hj
  have hij : i ≤ j := by
    by_contra hgt
    push_neg at hgt
    have hs := (List.sorted_insertionSort scoreGe stocks).rel_get_of_lt
      (a := ⟨j, hj'⟩) (b := ⟨i, hi'⟩) (Fin.mk_lt_mk.mpr hgt)
    rw [List.getD_eq_getElem _ _ hi', List.getD_eq_getElem _ _ hj'] at hscore
    exact absurd hscore (not_lt.mpr hs)
  exact assignRank_anti stocks.length hij

/-- Witness for `c6_rank_monotone`: a two-stock universe where the first
output entry outscored the second. -/
theorem c6_rank_monotone_witness :
    ((assignPercentiles [⟨"A", 1, 0⟩, ⟨"B", 2, 0⟩]).getD 1 (⟨"", 0, 0⟩, 0)).2
      ≤ ((assignPercentiles [⟨"A", 1, 0⟩, ⟨"B", 2, 0⟩]).getD 0 (⟨"", 0, 0⟩, 0)).2 :=
  c6_rank_monotone [⟨"A", 1, 0⟩, ⟨"B", 2, 0⟩] 0 1 (by decide) (by decide)
    (by decide)

/-! ## C7: rank bounds -/

/-- C7: for every non-empty scored universe, every rank assigned by the
ranking run lies in `[1, 99]`. -/
theorem c7_rank_bounds (stocks : List ScoredStock) (_hne : stocks ≠ [])
    (p : ScoredStock × Nat) (hp : p ∈ assignPercentiles stocks) :
    1 ≤ p.2 ∧ p.2 ≤ 99 := by
  unfold assignPercentiles at hp
  obtain ⟨q, _, rfl⟩ := List.mem_map.1 hp
  exact ⟨one_le_assignRank _ _, assignRank_le_99 _ _⟩

/-- Witness for `c7_rank_bounds` at a universe of size 1. -/
theorem c7_rank_bounds_witness :
    1 ≤ (⟨⟨"A", 5, 0⟩, 99⟩ : ScoredStock × Nat).2 ∧
      (⟨⟨"A", 5, 0⟩, 99⟩ : ScoredStock × Nat).2 ≤ 99 :=
  c7_rank_bounds [⟨"A", 5, 0⟩] (by decide) ⟨⟨"A", 5, 0⟩, 99⟩ (by decide)

/-! ## C8: the zero-eligible ranking run -/

/-- C8 (counterexample): `process_stocks.py` writes no rankings artifact at
all when zero symbols are eligible — the `if all_stock_data:` guard skips
the whole output section, so there is no output rather than an empty
artifact with `total_stocks = 0`. -/
theorem c8_counterexample : process_stocks_artifact [] = none := rfl

/-- C8 (amended): with zero eligible symbols, the full ranking run
(`process_stocks.py`) produces no artifact, while the daily ranking run
(`process_stocks_daily.py`) does produce the artifact with
`total_stocks = 0` and an empty data list. -/
theorem c8_amended :
    process_stocks_artifact [] = none ∧
      process_stocks_daily_artifact [] = ⟨0, []⟩ :=
  ⟨rfl, rfl⟩

/-! ## Helper lemmas about `calculate_returns` -/

theorem sortPrices_length (prices : List PriceBar) :
    (sortPrices prices).length = prices.length :=
  (List.perm_insertionSort priceLe prices).length_eq

theorem periodReturn_spec (prices : List PriceBar) (d : Nat) :
    periodReturn (sortPrices prices) (lastClose prices) d
      = if prices.length > d ∧ 0 < horizonRef prices d then specReturn prices d
        else 0 := by
  unfold periodReturn
  by_cases h1 : prices.length > d
  · have h1' : (sortPrices prices).length > d := by rw [sortPrices_length]; exact h1
    rw [if_pos h1']
    have hidx : (sortPrices prices).length - (d + 1)
        = (sortPrices prices).length - 1 - d := by omega
    rw [hidx]
    show (if horizonRef prices d > 0
        then (lastClose prices - horizonRef prices d) / horizonRef prices d
        else 0) = _
    by_cases h2 : 0 < horizonRef prices d
    · rw [if_pos h2, if_pos ⟨h1, h2⟩]
      rfl
    · rw [if_neg h2, if_neg (by tauto)]
  · have h1' : ¬ (sortPrices prices).length > d := by rw [sortPrices_length]; exact h1
    rw [if_neg h1', if_neg (by tauto)]

theorem calculate_returns_eq_none_iff (prices : List PriceBar) :
    calculate_returns prices = none ↔ prices.length < 252 := by
  unfold calculate_returns
  by_cases h : prices.length < 252
  · simp [h]
  · simp [h]

theorem calculate_returns_returnFor (prices : List PriceBar) (rv : Returns × ℚ)
    (hrv : calculate_returns prices = some rv) (d : Nat)
    (hd : d ∈ [63, 126, 189, 252]) :
    returnFor rv.1 d
      = if prices.length > d ∧ 0 < horizonRef prices d then specReturn prices d
        else 0 := by
  unfold calculate_returns at hrv
  rw [if_neg (by
    intro hlt
    simp [hlt] at hrv)] at hrv
  · injection hrv with hrv'
    subst hrv'
    have h63 := periodReturn_spec prices 63
    have h126 := periodReturn_spec prices 126
    have h189 := periodReturn_spec prices 189
    have h252 := periodReturn_spec prices 252
    fin_cases hd
    · exact h63
    · exact h126
    · exact h189
    · exact h252

/-! ## C2: insufficient history and the horizon-return formula -/

/-- C2 (counterexample): a 252-bar series whose 63-bar reference close
(index `252 − 1 − 63 = 188`) is negative.  The code returns a `'3m'` return
of `0`, while the claimed unguarded formula evaluates to `−2 ≠ 0` even
though `len(series) > 63`. -/
theorem c2_counterexample :
    (calculate_returns seriesNegRef).map (fun rv => rv.1.r3m) = some 0 ∧
      specReturn seriesNegRef 63 = -2 ∧ seriesNegRef.length > 63 := by
  refine ⟨by decide, ?_, by decide⟩
  with_unfolding_all decide

/-- C2 (amended): `calculate_returns` returns `none` exactly when the
series has fewer than 252 bars, and the symbol is then excluded from the
scored universe; when it returns a value, each horizon return equals
`(lastClose − close[len−1−h]) / close[len−1−h]` if `len(series) > h` **and
the reference close is strictly positive**, and `0` otherwise. -/
theorem c2_returns_spec (prices : List PriceBar) :
    (calculate_returns prices = none ↔ prices.length < 252) ∧
      (∀ sym rest, prices.length < 252 →
        eligibleStocks ((sym, prices) :: rest) = eligibleStocks rest) ∧
      (∀ rv, calculate_returns prices = some rv →
        ∀ d ∈ [63, 126, 189, 252],
          returnFor rv.1 d
            = if prices.length > d ∧ 0 < horizonRef prices d
              then specReturn prices d else 0) := by
  refine ⟨calculate_returns_eq_none_iff prices, ?_, ?_⟩
  · intro sym rest hlt
    unfold eligibleStocks
    rw [List.filterMap_cons]
    have hnone : calculate_returns prices = none :=
      (calculate_returns_eq_none_iff prices).mpr hlt
    simp [hnone]
  · intro rv hrv d hd
    exact calculate_returns_returnFor prices rv hrv d hd

/-- Witness for `c2_returns_spec`: a too-short series is excluded, and on a
252-bar constant-price series the `'3m'` return is `0` by the formula. -/
theorem c2_returns_spec_witness :
    eligibleStocks [("X", [])] = eligibleStocks [] ∧
      (calculate_returns (List.replicate 252 (⟨0, 1, 1⟩ : PriceBar)) = none ↔
        (List.replicate 252 (⟨0, 1, 1⟩ : PriceBar)).length < 252) :=
  ⟨(c2_returns_spec []).2.1 "X" [] (by decide),
    (c2_returns_spec (List.replicate 252 ⟨0, 1, 1⟩)).1⟩

/-! ## C10: the division guard -/

/-- C10: whenever `calculate_returns` succeeds (`len ≥ 252`), a horizon
whose reference close is not strictly positive contributes a return of `0`
rather than the result of the division. -/
theorem c10_division_guard (prices : List PriceBar) (rv : Returns × ℚ)
    (hrv : calculate_returns prices = some rv) (d : Nat)
    (hd : d ∈ [63, 126, 189, 252]) (href : horizonRef prices d ≤ 0) :
    returnFor rv.1 d = 0 := by
  rw [calculate_returns_returnFor prices rv hrv d hd]
  rw [if_neg (by
    intro hcon
    exact absurd hcon.2 (not_lt.mpr href))]

/-- Witness for `c10_division_guard`: a 252-bar series whose 126-bar
reference close (index `252 − 1 − 126 = 125`) is `0`. -/
theorem c10_division_guard_witness :
    returnFor (⟨0, 0, 0, 0⟩ : Returns) 126 = 0 :=
  c10_division_guard seriesZeroRef (⟨0, 0, 0, 0⟩, 1)
    (by with_unfolding_all decide) 126 (by decide) (by decide)

/-! ## Helper lemmas about the shard planner -/

theorem ceilNatDiv_zero (N : Nat) : ceilNatDiv 0 N = 0 := by
  unfold ceilNatDiv
  rcases Nat.eq_zero_or_pos N with h | h
  · subst h; rfl
  · exact Nat.div_eq_of_lt (by omega)

theorem ceilNatDiv_succ (m N : Nat) (hm : 0 < m) (hN : 0 < N) :
    ceilNatDiv m N = ceilNatDiv (m - N) N + 1 := by
  unfold ceilNatDiv
  by_cases h : N ≤ m
  · have hrw : m + N - 1 = (m - N + N - 1) + N := by omega
    rw [hrw, Nat.add_div_right _ hN]
  · have h1 : (m + N - 1) / N = 1 :=
      Nat.div_eq_of_lt_le (by omega) (by omega)
    have h2 : m - N = 0 := by omega
    have h3 : (0 + N - 1) / N = 0 := Nat.div_eq_of_lt (by omega)
    rw [h1, h2, h3]

theorem flatten_chunks {α : Type} (N : Nat) (hN : 0 < N) :
    ∀ (fuel : Nat) (l : List α), l.length ≤ fuel →
      ((List.range (ceilNatDiv l.length N)).map
          (fun i => (l.drop (i * N)).take N)).flatten = l := by
  intro fuel
  induction fuel with
  | zero =>
    intro l hl
    have hnil : l = [] := List.eq_nil_of_length_eq_zero (by omega)
    subst hnil
    simp [ceilNatDiv_zero]
  | succ n ih =>
    intro l hl
    by_cases hnil : l = []
    · subst hnil; simp [ceilNatDiv_zero]
    · have hlen : 0 < l.length := List.length_pos.mpr hnil
      rw [ceilNatDiv_succ l.length N hlen hN, List.range_succ_eq_map,
        List.map_cons, List.map_map, List.flatten_cons]
      have hdrop0 : (l.drop (0 * N)).take N = l.take N := by simp
      rw [hdrop0]
      have hrest : (List.range (ceilNatDiv (l.length - N) N)).map
          ((fun i => (l.drop (i * N)).take N) ∘ Nat.succ)
          = (List.range (ceilNatDiv ((l.drop N).length) N)).map
              (fun i => ((l.drop N).drop (i * N)).take N) := by
        rw [List.length_drop]
        refine List.map_congr_left ?_
        intro i _
        show (l.drop (Nat.succ i * N)).take N = ((l.drop N).drop (i * N)).take N
        rw [List.drop_drop, Nat.succ_mul]
        rw [Nat.add_comm]
      rw [hrest, ih (l.drop N) (by rw [List.length_drop]; omega)]
      exact List.take_append_drop N l

theorem sortSymbols_length (symbols : List String) :
    (sortSymbols symbols).length = symbols.length :=
  (List.perm_insertionSort _ symbols).length_eq

theorem get_split_ranges_map_symbols (symbols : List String) (N : Nat) (hN : 0 < N) :
    ((get_split_ranges symbols N).map Split.symbols).flatten = sortSymbols symbols := by
  by_cases h : symbols = []
  · subst h; rfl
  · unfold get_split_ranges
    rw [if_neg h, List.map_map]
    exact flatten_chunks N hN (sortSymbols symbols).length (sortSymbols symbols) le_rfl

theorem get_split_ranges_length (symbols : List String) (N : Nat) :
    (get_split_ranges symbols N).length = ceilNatDiv symbols.length N := by
  by_cases h : symbols = []
  · subst h; simp [get_split_ranges, ceilNatDiv_zero]
  · unfold get_split_ranges
    rw [if_neg h]
    simp [List.length_map, List.length_range, sortSymbols_length]

/-! ## C3: the shard plan partitions the universe -/

/-- C3: for every deduplicated symbol universe and positive shard size `N`,
the shard plan's member lists concatenate to a permutation of the input
universe (their union is the universe), are pairwise disjoint, the number
of shards is `⌈|universe| / N⌉`, and the empty universe yields the empty
plan. -/
theorem c3_shard_partition (symbols : List String) (N : Nat) (hN : 0 < N)
    (hnd : symbols.Nodup) :
    List.Perm ((get_split_ranges symbols N).map Split.symbols).flatten symbols ∧
      List.Pairwise List.Disjoint ((get_split_ranges symbols N).map Split.symbols) ∧
      (get_split_ranges symbols N).length = ceilNatDiv symbols.length N ∧
      get_split_ranges [] N = [] := by
  have hperm : List.Perm (sortSymbols symbols) symbols :=
    List.perm_insertionSort _ symbols
  refine ⟨?_, ?_, get_split_ranges_length symbols N, rfl⟩
  · rw [get_split_ranges_map_symbols symbols N hN]
    exact hperm
  · have hnd' : (sortSymbols symbols).Nodup := hperm.nodup_iff.mpr hnd
    rw [← get_split_ranges_map_symbols symbols N hN] at hnd'
    exact (List.nodup_flatten.mp hnd').2

/-- Witness for `c3_shard_partition` on the universe `["B", "A", "C"]` with
shard size 2. -/
theorem c3_shard_partition_witness :
    List.Perm ((get_split_ranges ["B", "A", "C"] 2).map Split.symbols).flatten
        ["B", "A", "C"] ∧
      List.Pairwise List.Disjoint
        ((get_split_ranges ["B", "A", "C"] 2).map Split.symbols) ∧
      (get_split_ranges ["B", "A", "C"] 2).length = ceilNatDiv 3 2 ∧
      get_split_ranges [] 2 = [] :=
  c3_shard_partition ["B", "A", "C"] 2 (by decide) (by decide)

/-! ## Helper lemmas about the incremental merge -/

theorem replaceFirstBar_cons (x : OHLCBar) (rest : List OHLCBar) (b : OHLCBar)
    (ts : Int) :
    replaceFirstBar (x :: rest) b ts
      = if x.t = ts then b :: rest else x :: replaceFirstBar rest b ts := rfl

theorem strictTsB_cons₂ (a b : Int) (m : List Int) :
    strictTsB (a :: b :: m) = (decide (a < b) && strictTsB (b :: m)) := rfl

theorem replaceFirstBar_map_t (s : List OHLCBar) (b : OHLCBar) :
    (replaceFirstBar s b b.t).map (·.t) = s.map (·.t) := by
  induction s with
  | nil => rfl
  | cons x rest ih =>
    unfold replaceFirstBar
    by_cases h : x.t = b.t
    · rw [if_pos h]
      simp [h]
    · rw [if_neg h]
      simp [ih]

theorem replaceFirstBar_length (s : List OHLCBar) (b : OHLCBar) (ts : Int) :
    (replaceFirstBar s b ts).length = s.length := by
  induction s with
  | nil => rfl
  | cons x rest ih =>
    unfold replaceFirstBar
    by_cases h : x.t = ts
    · rw [if_pos h]
      simp
    · rw [if_neg h]
      simp [ih]

theorem replaceFirstBar_eq_self (s : List OHLCBar) (b : OHLCBar) (ts : Int)
    (h : ∀ x ∈ s, x.t = ts → x = b) :
    replaceFirstBar s b ts = s := by
  induction s with
  | nil => rfl
  | cons x rest ih =>
    unfold replaceFirstBar
    by_cases hx : x.t = ts
    · rw [if_pos hx, h x (List.mem_cons_self x rest) hx]
    · rw [if_neg hx, ih (fun y hy hyt => h y (List.mem_cons_of_mem x hy) hyt)]

theorem replaceFirstBar_idem (s : List OHLCBar) (b : OHLCBar) :
    replaceFirstBar (replaceFirstBar s b b.t) b b.t = replaceFirstBar s b b.t := by
  induction s with
  | nil => rfl
  | cons x rest ih =>
    rw [replaceFirstBar_cons]
    by_cases hx : x.t = b.t
    · rw [if_pos hx, replaceFirstBar_cons, if_pos rfl]
    · rw [if_neg hx, replaceFirstBar_cons, if_neg hx, ih]

theorem orderedInsert_eq_cons (x : OHLCBar) (R : List OHLCBar)
    (h : List.Sorted ohlcLe (x :: R)) : R.orderedInsert ohlcLe x = x :: R := by
  cases R with
  | nil => rfl
  | cons y R' =>
    unfold List.orderedInsert
    rw [if_pos (List.rel_of_sorted_cons h y (List.mem_cons_self y R'))]

theorem sortOHLC_append_min (a : OHLCBar) (R : List OHLCBar)
    (hsort : List.Sorted ohlcLe R) (hmin : ∀ y ∈ R, a.t < y.t) :
    sortOHLC (R ++ [a]) = a :: R := by
  induction R with
  | nil => rfl
  | cons x R' ih =>
    have hmin' : ∀ y ∈ R', a.t < y.t := fun y hy => hmin y (List.mem_cons_of_mem x hy)
    show List.insertionSort ohlcLe (x :: (R' ++ [a])) = a :: x :: R'
    rw [List.insertionSort,
      show List.insertionSort ohlcLe (R' ++ [a]) = a :: R' from ih hsort.of_cons hmin']
    unfold List.orderedInsert
    rw [if_neg (show ¬ ohlcLe x a from fun hle =>
      absurd (hmin x (List.mem_cons_self x R')) (not_lt.mpr hle))]
    rw [orderedInsert_eq_cons x R' hsort]

theorem strictTsB_iff_chain : ∀ l : List Int, strictTsB l = true ↔ l.Chain' (· < ·) := by
  intro l
  induction l with
  | nil => simp [strictTsB]
  | cons a l ih =>
    cases l with
    | nil => simp [strictTsB]
    | cons b m =>
      rw [List.chain'_cons, ← ih, strictTsB_cons₂]
      simp

theorem strictTs_iff_pairwise (l : List OHLCBar) :
    StrictTs l ↔ l.Pairwise (fun a b => a.t < b.t) := by
  unfold StrictTs
  rw [strictTsB_iff_chain, List.chain'_iff_pairwise, List.pairwise_map]

theorem pairwise_lt_of_sorted_nodup (l : List OHLCBar)
    (hs : List.Sorted ohlcLe l) (hnd : (l.map (·.t)).Nodup) :
    l.Pairwise (fun a b => a.t < b.t) := by
  have hne : l.Pairwise (fun a b : OHLCBar => a.t ≠ b.t) := List.pairwise_map.mp hnd
  exact (hs.and hne).imp (fun h => lt_of_le_of_ne h.1 h.2)

theorem capSeries_subset (d : List OHLCBar) : capSeries d ⊆ d := by
  unfold capSeries
  split
  · exact List.drop_subset _ _
  · exact fun _ h => h

/-! ## C4: merging the same bar twice -/

/-- C4: merging a bar into a series twice yields the same final series as
merging it once — the second merge finds the timestamp already present and
replaces the bar in place (or, if the bar was evicted by the retention cap,
evicts it again). -/
theorem c4_merge_idempotent (series : List OHLCBar) (bar : OHLCBar) :
    mergeBar (mergeBar series bar) bar = mergeBar series bar := by
  by_cases hmem : bar.t ∈ series.map (·.t)
  · have h1 : mergeBar series bar = replaceFirstBar series bar bar.t := by
      unfold mergeBar update_symbol_data
      rw [if_neg (not_not_intro hmem)]
    rw [h1]
    have h2 : bar.t ∈ (replaceFirstBar series bar bar.t).map (·.t) := by
      rw [replaceFirstBar_map_t]
      exact hmem
    unfold mergeBar update_symbol_data
    rw [if_neg (not_not_intro h2)]
    exact replaceFirstBar_idem series bar
  · have h1 : mergeBar series bar = capSeries (sortOHLC (series ++ [bar])) := by
      unfold mergeBar update_symbol_data
      rw [if_pos hmem]
    have hpermS : List.Perm (sortOHLC (series ++ [bar])) (series ++ [bar]) :=
      List.perm_insertionSort ohlcLe (series ++ [bar])
    have hbarS : bar ∈ sortOHLC (series ++ [bar]) :=
      hpermS.mem_iff.mpr (List.mem_append.mpr (Or.inr (List.mem_cons_self bar [])))
    have huniq : ∀ x ∈ sortOHLC (series ++ [bar]), x.t = bar.t → x = bar := by
      intro x hx hxt
      rcases List.mem_append.mp (hpermS.mem_iff.mp hx) with h | h
      · exact absurd (hxt ▸ List.mem_map_of_mem (·.t) h) hmem
      · simpa using h
    rw [h1]
    by_cases hmemR : bar.t ∈ (capSeries (sortOHLC (series ++ [bar]))).map (·.t)
    · unfold mergeBar update_symbol_data
      rw [if_neg (not_not_intro hmemR)]
      exact replaceFirstBar_eq_self _ bar bar.t
        (fun x hx hxt => huniq x (capSeries_subset _ hx) hxt)
    · set S := sortOHLC (series ++ [bar]) with hSdef
      set R := capSeries S with hRcap
      have hbar_not_R : bar ∉ R := fun h => hmemR (List.mem_map_of_mem _ h)
      have hlen400 : S.length > 400 := by
        by_contra hle
        have hcapS : R = S := by rw [hRcap]; unfold capSeries; rw [if_neg hle]
        exact hbar_not_R (hcapS ▸ hbarS)
      have hRdef : R = S.drop (S.length - 400) := by
        rw [hRcap]; unfold capSeries; rw [if_pos hlen400]
      have hRlen : R.length = 400 := by
        rw [hRdef, List.length_drop]
        omega
      have hsortedS : List.Sorted ohlcLe S := List.sorted_insertionSort ohlcLe _
      have hsortedR : List.Sorted ohlcLe R := by
        rw [hRdef]
        exact List.Pairwise.sublist (List.drop_sublist _ S) hsortedS
      have hbar_take : bar ∈ S.take (S.length - 400) := by
        have hmemS := hbarS
        rw [← List.take_append_drop (S.length - 400) S] at hmemS
        rcases List.mem_append.mp hmemS with h | h
        · exact h
        · exact absurd (by rw [hRdef]; exact h) hbar_not_R
      have hmin : ∀ y ∈ R, bar.t < y.t := by
        intro y hy
        have hpw : List.Pairwise ohlcLe
            (S.take (S.length - 400) ++ S.drop (S.length - 400)) := by
          rw [List.take_append_drop]
          exact hsortedS
        have hle : ohlcLe bar y :=
          (List.pairwise_append.mp hpw).2.2 bar hbar_take y (by rw [← hRdef]; exact hy)
        have hne : bar.t ≠ y.t := fun he => hmemR (he ▸ List.mem_map_of_mem (·.t) hy)
        exact lt_of_le_of_ne hle hne
      unfold mergeBar update_symbol_data
      rw [if_pos hmemR, sortOHLC_append_min bar R hsortedR hmin]
      unfold capSeries
      rw [List.length_cons, hRlen]
      rw [if_pos (by omega)]
      simp

/-! ## C5: retention-cap invariants of the merge -/

/-- C5: merging one bar into a strictly-increasing series of at most 400
bars yields a strictly-increasing series of at most 400 bars whose length
is the capped length of the full merged series, and whatever the cap
evicted is strictly older (by timestamp) than everything retained — the
retained bars are exactly the most recent ones. -/
theorem c5_retention_invariants (series : List OHLCBar) (bar : OHLCBar)
    (hs : StrictTs series) (hlen : series.length ≤ 400) :
    StrictTs (mergeBar series bar) ∧
      (mergeBar series bar).length ≤ 400 ∧
      (mergeBar series bar).length = min 400 (mergedFull series bar).length ∧
      ∃ dropped, dropped ++ mergeBar series bar = mergedFull series bar ∧
        ∀ x ∈ dropped, ∀ y ∈ mergeBar series bar, x.t < y.t := by
  by_cases hmem : bar.t ∈ series.map (·.t)
  · have h1 : mergeBar series bar = replaceFirstBar series bar bar.t := by
      unfold mergeBar update_symbol_data
      rw [if_neg (not_not_intro hmem)]
    have h2 : mergedFull series bar = replaceFirstBar series bar bar.t := by
      unfold mergedFull
      rw [if_neg (not_not_intro hmem)]
    refine ⟨?_, ?_, ?_, [], ?_, by simp⟩
    · rw [h1]
      unfold StrictTs
      rw [replaceFirstBar_map_t]
      exact hs
    · rw [h1, replaceFirstBar_length]
      exact hlen
    · rw [h1, h2, replaceFirstBar_length]
      omega
    · rw [List.nil_append, h1, h2]
  · have h1 : mergeBar series bar = capSeries (sortOHLC (series ++ [bar])) := by
      unfold mergeBar update_symbol_data
      rw [if_pos hmem]
    have h2 : mergedFull series bar = sortOHLC (series ++ [bar]) := by
      unfold mergedFull
      rw [if_pos hmem]
    set S := sortOHLC (series ++ [bar]) with hSdef
    have hperm : List.Perm S (series ++ [bar]) :=
      List.perm_insertionSort ohlcLe (series ++ [bar])
    have hndS : (S.map (·.t)).Nodup := by
      have hnd0 : ((series ++ [bar]).map (·.t)).Nodup := by
        rw [List.map_append, List.nodup_append]
        refine ⟨?_, List.nodup_singleton _, ?_⟩
        · have hpl : series.Pairwise (fun a b => a.t < b.t) :=
            (strictTs_iff_pairwise series).mp hs
          exact List.pairwise_map.mpr (hpl.imp (fun h => ne_of_lt h))
        · intro a ha hb
          simp only [List.map_cons, List.map_nil, List.mem_singleton] at hb
          subst hb
          exact hmem ha
      exact ((hperm.map (·.t)).nodup_iff).mpr hnd0
    have hplS : S.Pairwise (fun a b => a.t < b.t) :=
      pairwise_lt_of_sorted_nodup S (List.sorted_insertionSort ohlcLe _) hndS
    have hSlen : S.length = series.length + 1 := by
      rw [hperm.length_eq, List.length_append, List.length_cons, List.length_nil]
    by_cases hlen400 : S.length > 400
    · have hcap : capSeries S = S.drop (S.length - 400) := by
        unfold capSeries
        rw [if_pos hlen400]
      refine ⟨?_, ?_, ?_, S.take (S.length - 400), ?_, ?_⟩
      · rw [h1, hcap, strictTs_iff_pairwise]
        exact List.Pairwise.sublist (List.drop_sublist _ S) hplS
      · rw [h1, hcap, List.length_drop]
        omega
      · rw [h1, h2, hcap, List.length_drop]
        omega
      · rw [h1, h2, hcap]
        exact List.take_append_drop _ S
      · intro x hx y hy
        rw [h1, hcap] at hy
        have hpw : List.Pairwise (fun a b : OHLCBar => a.t < b.t)
            (S.take (S.length - 400) ++ S.drop (S.length - 400)) := by
          rw [List.take_append_drop]
          exact hplS
        exact (List.pairwise_append.mp hpw).2.2 x hx y hy
    · have hcap : capSeries S = S := by
        unfold capSeries
        rw [if_neg hlen400]
      refine ⟨?_, ?_, ?_, [], ?_, by simp⟩
      · rw [h1, hcap, strictTs_iff_pairwise]
        exact hplS
      · rw [h1, hcap]
        omega
      · rw [h1, h2, hcap]
        omega
      · rw [List.nil_append, h1, h2, hcap]

/-- Witness for `c5_retention_invariants`: merging a fresh bar into a
one-bar strictly increasing series. -/
theorem c5_retention_invariants_witness :
    StrictTs (mergeBar [⟨0, 1, 1, 1, 1, 1⟩] ⟨5, 2, 2, 2, 2, 2⟩) ∧
      (mergeBar [⟨0, 1, 1, 1, 1, 1⟩] ⟨5, 2, 2, 2, 2, 2⟩).length ≤ 400 ∧
      (mergeBar [⟨0, 1, 1, 1, 1, 1⟩] ⟨5, 2, 2, 2, 2, 2⟩).length
        = min 400 (mergedFull [⟨0, 1, 1, 1, 1, 1⟩] ⟨5, 2, 2, 2, 2, 2⟩).length ∧
      ∃ dropped,
        dropped ++ mergeBar [⟨0, 1, 1, 1, 1, 1⟩] ⟨5, 2, 2, 2, 2, 2⟩
            = mergedFull [⟨0, 1, 1, 1, 1, 1⟩] ⟨5, 2, 2, 2, 2, 2⟩ ∧
          ∀ x ∈ dropped,
            ∀ y ∈ mergeBar [⟨0, 1, 1, 1, 1, 1⟩] ⟨5, 2, 2, 2, 2, 2⟩, x.t < y.t :=
  c5_retention_invariants [⟨0, 1, 1, 1, 1, 1⟩] ⟨5, 2, 2, 2, 2, 2⟩
    (by decide) (by decide)

/-! ## C9: persisted index byte sizes -/

/-- C9: `save_updated_index` persists the index **before** refreshing the
recorded shard byte sizes.  Concretely: with shard `ohlc_001.json` having
post-write size 20 on disk while the in-memory index still records the
pre-write size 10, the index written to disk records 10 — only the
in-memory copy, which is discarded when the run ends, gets the fresh
size 20.  The claim that the persisted index never retains the pre-write
byte size is therefore false of the code. -/
theorem c9_persisted_index_stale :
    (save_updated_index ⟨some ⟨0, [⟨"ohlc_001.json", 10⟩]⟩, fun _ => 20⟩
          ⟨7, [⟨"ohlc_001.json", 10⟩]⟩).1.indexOnDisk
        = some ⟨7, [⟨"ohlc_001.json", 10⟩]⟩ ∧
      (save_updated_index ⟨some ⟨0, [⟨"ohlc_001.json", 10⟩]⟩, fun _ => 20⟩
          ⟨7, [⟨"ohlc_001.json", 10⟩]⟩).2.files
        = [⟨"ohlc_001.json", 20⟩] :=
  ⟨rfl, rfl⟩
